import Mathlib

/-
Shallow embedding of the print-queue formation engine
(`src/queue_formation.py`, class `QueueManager`) and proofs about it.

Python dict values are modelled by the inductive `Value`;
a job record (`Dict[str, Any]`) is an association list `Job`;
floats are modelled as exact rationals;
`datetime.date` is modelled by `Date` with a day-ordinal function;
`pandas.DataFrame` is modelled by `Table` (a column list plus rows
aligned positionally with the columns).
-/

namespace PrintQueue

/-- A Python value as it occurs in job records: strings, ints, floats
(modelled as rationals), `None`, pandas `NaN`, and lists of strings
(the `problems` annotation). -/
inductive Value where
  | vStr (s : String)
  | vInt (n : Int)
  | vRat (q : ℚ)
  | vNone
  | vNaN
  | vStrList (l : List String)
deriving DecidableEq

/-- A job record: a Python dict in insertion order, keys unique in practice. -/
abbrev Job := List (String × Value)

/-- Python `d.get(k)` without default: first binding of `k`, if any. -/
def jLookup (k : String) : Job → Option Value
  | [] => none
  | (k', v) :: rest => if k' == k then some v else jLookup k rest

/-- Python `d.get(k, dflt)`. -/
def jGetD (j : Job) (k : String) (dflt : Value) : Value :=
  (jLookup k j).getD dflt

/-- Python `d[k] = v`: replace the value in place if the key exists
(insertion order kept), otherwise append the new binding. -/
def setField (j : Job) (k : String) (v : Value) : Job :=
  match j with
  | [] => [(k, v)]
  | (k', v') :: rest => if k' == k then (k', v) :: rest else (k', v') :: setField rest k v

/-- Python truthiness of a `Value`. -/
def truthy : Value → Bool
  | .vStr s => !(s == "")
  | .vInt n => !(n == 0)
  | .vRat q => !(q == 0)
  | .vNone => false
  | .vNaN => true
  | .vStrList l => !l.isEmpty

/-- order.get('order_id') as used throughout `queue_formation.py`. -/
def getId (j : Job) : Value := (jLookup "order_id" j).getD .vNone

/-- The id values of a queue, in order. -/
def idsOf (queue : List Job) : List Value := queue.map getId

/- ---------------- dates (`datetime.date`, `strptime("%d.%m.%Y")`) ---------------- -/

/-- A calendar date (proleptic Gregorian, year ≥ 1 for parsed dates). -/
structure Date where
  day : Nat
  month : Nat
  year : Nat
deriving DecidableEq

def isLeap (y : Nat) : Bool := (y % 4 == 0 && !(y % 100 == 0)) || (y % 400 == 0)

def daysInMonth (y m : Nat) : Nat :=
  if m == 2 then (if isLeap y then 29 else 28)
  else if m == 4 || m == 6 || m == 9 || m == 11 then 30
  else 31

/-- Days in year `y` strictly before month `m`. -/
def daysBeforeMonth (y m : Nat) : Nat :=
  (List.range (m - 1)).foldl (fun acc i => acc + daysInMonth y (i + 1)) 0

/-- Day ordinal of a date (1.1.1 ↦ 1), so differences of ordinals are
exactly `(d1 - d2).days` of `datetime.date` subtraction. -/
def toOrdinal (d : Date) : Int :=
  ((365 * (d.year - 1) + (d.year - 1) / 4 - (d.year - 1) / 100 + (d.year - 1) / 400
    + daysBeforeMonth d.year d.month + d.day : Nat) : Int)

/-- `(deadline - today).days`. -/
def dateDiff (deadline today : Date) : Int := toOrdinal deadline - toOrdinal today

def isDigits (l : List Char) : Bool := !l.isEmpty && l.all Char.isDigit

def natOfDigits (l : List Char) : Nat :=
  l.foldl (fun acc c => acc * 10 + (c.toNat - 48)) 0

def validDate (d m y : Nat) : Bool :=
  1 ≤ y && 1 ≤ m && m ≤ 12 && 1 ≤ d && d ≤ daysInMonth y m

/-- Python `s.split('.')` on a character list. -/
def splitOnDot : List Char → List (List Char)
  | [] => [[]]
  | c :: rest =>
    if c == '.' then [] :: splitOnDot rest
    else
      match splitOnDot rest with
      | [] => [[c]]
      | g :: gs => (c :: g) :: gs

/-- `datetime.datetime.strptime(s, "%d.%m.%Y").date()` as a total parser:
day and month are 1-2 digits, the year exactly 4 digits, and the triple
must be a valid calendar date; anything else is `none` (the `ValueError` path). -/
def parseDate (s : String) : Option Date :=
  match splitOnDot s.toList with
  | [ds, ms, ys] =>
    if isDigits ds && ds.length ≤ 2 && isDigits ms && ms.length ≤ 2
        && isDigits ys && ys.length == 4 then
      let d := natOfDigits ds
      let m := natOfDigits ms
      let y := natOfDigits ys
      if validDate d m y then some ⟨d, m, y⟩ else none
    else none
  | _ => none

/- ---------------- configuration (`QueueManager.__init__`) ---------------- -/

/-- The queue configuration surface read in `QueueManager.__init__`. -/
structure Config where
  deadline_weight : ℚ
  customer_priority_weight : ℚ
  emergency_threshold_days : Int
deriving DecidableEq

/-- The defaults applied when the config file omits the keys:
`deadline_weight` 0.7, `customer_priority_weight` 0.3,
`emergency_threshold_days` 3. -/
def defaultConfig : Config :=
  { deadline_weight := 7/10, customer_priority_weight := 3/10, emergency_threshold_days := 3 }

/- ---------------- `_calculate_days_to_deadline` ---------------- -/

/-- `_calculate_days_to_deadline`: empty/falsy input yields 999; a parse
failure (ValueError) yields 999; a non-string truthy value would raise
`TypeError` inside `strptime`, which the broad `except Exception` also
converts to 999; a parsed date yields the day difference clamped at 0. -/
def calculate_days_to_deadline (today : Date) (deadline : Value) : Int :=
  match deadline with
  | .vStr s =>
    if s == "" then 999
    else
      match parseDate s with
      | some d => max (dateDiff d today) 0
      | none => 999
  | _ => 999

/-- The string-typed entry point of the same function (the deadline field
is documented as a string). -/
def days_remaining (today : Date) (s : String) : Int :=
  calculate_days_to_deadline today (.vStr s)

/- ---------------- `_calculate_priority_score` ---------------- -/

def pyLowerChar (c : Char) : Char :=
  if 'A' ≤ c && c ≤ 'Z' then Char.ofNat (c.toNat + 32)
  else if 'А' ≤ c && c ≤ 'Я' then Char.ofNat (c.toNat + 32)
  else if c == 'Ё' then 'ё'
  else c

/-- Python `str.lower()` restricted to the alphabets that occur here
(ASCII and Cyrillic). -/
def pyLower (s : String) : String := String.mk (s.toList.map pyLowerChar)

def startsWithList : List Char → List Char → Bool
  | _, [] => true
  | [], _ :: _ => false
  | a :: as, b :: bs => a == b && startsWithList as bs

def containsSub : List Char → List Char → Bool
  | [], needle => needle.isEmpty
  | a :: as, needle => startsWithList (a :: as) needle || containsSub as needle

/-- Python `needle in hay` on strings (substring containment). -/
def strContainsB (hay needle : String) : Bool := containsSub hay.toList needle.toList

/-- The keyword-based priority modifier of `_calculate_priority_score`
(lines 92-99): the hint is lowercased, then "срочно"/"высокий" gives 0.5,
otherwise "низкий" gives 2.0, otherwise 1.0. -/
def priority_modifier (hint : String) : ℚ :=
  let priority_text := pyLower hint
  if strContainsB priority_text "срочно" || strContainsB priority_text "высокий" then 1/2
  else if strContainsB priority_text "низкий" then 2
  else 1

/-- `order.get('priority', '')` followed by `.lower()` requires a string;
a present non-string value would raise `AttributeError` in the source
(uncaught), so theorems restrict to jobs satisfying `wfPriority`. -/
def getPriorityText (j : Job) : String :=
  match jGetD j "priority" (.vStr "") with
  | .vStr s => s
  | _ => ""

/-- The job's `priority` field, if present, is a string (otherwise the
source raises when scoring). -/
def wfPriority (j : Job) : Bool :=
  match jLookup "priority" j with
  | none => true
  | some (.vStr _) => true
  | some _ => false

/-- `_calculate_priority_score`: days to deadline, the two-band base
priority (1 if within the emergency threshold else 3), the keyword
modifier, then the weighted linear blend. -/
def calculate_priority_score (cfg : Config) (today : Date) (order : Job) : ℚ :=
  let days_to_deadline := calculate_days_to_deadline today (jGetD order "deadline" (.vStr ""))
  let base_priority : ℚ := if days_to_deadline ≤ cfg.emergency_threshold_days then 1 else 3
  let priority_modifier' := priority_modifier (getPriorityText order)
  let deadline_factor := (days_to_deadline : ℚ) * cfg.deadline_weight
  let priority_factor := base_priority * priority_modifier' * cfg.customer_priority_weight
  deadline_factor + priority_factor

/- ---------------- `sort_orders` ---------------- -/

/-- `order['priority_score'] = self._calculate_priority_score(order)`. -/
def setScore (cfg : Config) (today : Date) (order : Job) : Job :=
  setField order "priority_score" (.vRat (calculate_priority_score cfg today order))

/-- The sort key `x.get('priority_score', 999)`; after `setScore` the field
is always a rational. -/
def scoreKey (j : Job) : ℚ :=
  match jGetD j "priority_score" (.vInt 999) with
  | .vRat x => x
  | .vInt n => (n : ℚ)
  | _ => 0

def jobLE (a b : Job) : Prop := scoreKey a ≤ scoreKey b

instance : DecidableRel jobLE := fun a b => inferInstanceAs (Decidable (_ ≤ _))

instance : IsTotal Job jobLE := ⟨fun a b => le_total (scoreKey a) (scoreKey b)⟩

instance : IsTrans Job jobLE := ⟨fun _ _ _ hab hbc => le_trans hab hbc⟩

/-- `sort_orders`: recompute every score, then a stable ascending sort by
the score. Python's `sorted` is a stable sort; `List.insertionSort` with
the key order is its stable counterpart (any two stable sorts by the
same key agree). Note: `sort_orders` itself does not touch
`queue_position`. -/
def sort_orders (cfg : Config) (today : Date) (orders : List Job) : List Job :=
  (orders.map (setScore cfg today)).insertionSort jobLE

/- ---------------- `merge_with_existing_queue` ---------------- -/

/-- Replacement of an existing entry by the incoming job, restoring the
existing `queue_position` when it was present and not `None`. -/
def withPreservedPosition (existing incoming : Job) : Job :=
  match jLookup "queue_position" existing with
  | some v => if v ≠ .vNone then setField incoming "queue_position" v else incoming
  | none => incoming

/-- The `for i, existing_order in enumerate(current_queue)` update loop:
replace the first entry whose id equals `oid` and stop. -/
def update_existing (queue : List Job) (oid : Value) (incoming : Job) : List Job :=
  match queue with
  | [] => []
  | e :: rest =>
    if getId e == oid then withPreservedPosition e incoming :: rest
    else e :: update_existing rest oid incoming

/-- One iteration of the merge loop over `new_orders`; the state is the
queue so far and the membership (`set`) of already-seen ids. A job whose
id is falsy and not among the seen ids matches neither branch and is
dropped. -/
def merge_step (st : List Job × List Value) (order : Job) : List Job × List Value :=
  let oid := getId order
  if truthy oid && !(st.2.contains oid) then (st.1 ++ [order], st.2 ++ [oid])
  else if st.2.contains oid then (update_existing st.1 oid order, st.2)
  else st

/-- `for i, order in enumerate(updated_queue): order['queue_position'] = i + 1`. -/
def renumber_aux (i : Nat) : List Job → List Job
  | [] => []
  | j :: rest => setField j "queue_position" (.vInt (i + 1)) :: renumber_aux (i + 1) rest

def renumber (queue : List Job) : List Job := renumber_aux 0 queue

/-- `merge_with_existing_queue`: reconcile the batch against the current
queue, re-sort everything, then renumber positions 1..N. -/
def merge_with_existing_queue (cfg : Config) (today : Date)
    (new_orders current_queue : List Job) : List Job :=
  let st := new_orders.foldl merge_step (current_queue, idsOf current_queue)
  renumber (sort_orders cfg today st.1)

/- ---------------- `queue_to_dataframe` / `dataframe_to_queue` ---------------- -/

/-- A `pandas.DataFrame`: named columns and rows aligned positionally
with the column list. -/
structure Table where
  cols : List String
  rows : List (List Value)
deriving DecidableEq

/-- Column union in order of first appearance, as `pd.DataFrame(list_of_dicts)`
derives its columns. -/
def unionKeys (queue : List Job) : List String :=
  queue.foldl
    (fun acc j => j.foldl (fun acc2 p => if acc2.contains p.1 then acc2 else acc2 ++ [p.1]) acc)
    []

/-- `pd.DataFrame(queue)`: one row per job, missing fields become NaN. -/
def toDataFrame (queue : List Job) : Table :=
  let cols := unionKeys queue
  { cols := cols, rows := queue.map (fun j => cols.map (fun c => jGetD j c .vNaN)) }

/-- The preferred export column order of `queue_to_dataframe`. -/
def canonicalColumns : List String :=
  ["queue_position", "order_id", "customer", "quantity",
   "deadline", "priority", "description", "processed_at"]

/-- The Excel display labels (`column_mapping` in `queue_to_dataframe`). -/
def column_mapping : List (String × String) :=
  [("queue_position", "Позиция"), ("order_id", "Номер заказа"),
   ("customer", "Заказчик"), ("quantity", "Количество"),
   ("deadline", "Срок сдачи"), ("priority", "Приоритет"),
   ("description", "Описание"), ("processed_at", "Дата обработки")]

def assocLookup (m : List (String × String)) (k : String) : Option String :=
  (m.find? (fun p => p.1 == k)).map (fun p => p.2)

/-- Value of column `c` in a row of `df` (`df[c]` for one row). -/
def colValue (df : Table) (row : List Value) (c : String) : Value :=
  match (df.cols.zip row).find? (fun p => p.1 == c) with
  | some p => p.2
  | none => .vNaN

/-- The `existing_columns` selection loop of `queue_to_dataframe`: the
canonical columns present in the frame, followed by every further column
except `priority_score`, in frame order. -/
def select_columns (df : Table) : List String :=
  df.cols.foldl
    (fun acc c => if !(acc.contains c) && !(c == "priority_score") then acc ++ [c] else acc)
    (canonicalColumns.filter (fun c => df.cols.contains c))

/-- `queue_to_dataframe`: build the frame, select the canonical columns
that exist followed by every further column except `priority_score`,
then rename selected columns to their display labels. -/
def queue_to_dataframe (queue : List Job) : Table :=
  let df := toDataFrame queue
  let existing_columns := select_columns df
  { cols := existing_columns.map (fun c => (assocLookup column_mapping c).getD c),
    rows := df.rows.map (fun r => existing_columns.map (colValue df r)) }

/-- The Russian→English `column_mapping` of `dataframe_to_queue`. -/
def column_mapping_ru : List (String × String) :=
  [("Позиция", "queue_position"), ("Номер заказа", "order_id"),
   ("Заказчик", "customer"), ("Количество", "quantity"),
   ("Срок сдачи", "deadline"), ("Приоритет", "priority"),
   ("Описание", "description"), ("Дата обработки", "processed_at")]

/-- The source builds
`rename_dict = {v: k for k, v in column_mapping.items() if v in df.columns}`
over the Russian→English `column_mapping` of `dataframe_to_queue`, i.e. a
dict from English field names to Russian labels. -/
def rename_dict_of (df : Table) : List (String × String) :=
  column_mapping_ru.foldl
    (fun acc p => if df.cols.contains p.2 then acc ++ [(p.2, p.1)] else acc) []

/-- `dataframe_to_queue`: rename the columns through `rename_dict`, take
`to_dict(orient='records')`, then add `priority_score = None` to any
record lacking the key. -/
def dataframe_to_queue (df : Table) : List Job :=
  let cols' := df.cols.map (fun c => (assocLookup (rename_dict_of df) c).getD c)
  let queue : List Job := df.rows.map (fun r => cols'.zip r)
  queue.map (fun order =>
    if (jLookup "priority_score" order).isSome then order
    else order ++ [("priority_score", Value.vNone)])

/- ---------------- `identify_problematic_orders` ---------------- -/

/-- The deadline-related problem messages: a falsy deadline value reports
a missing deadline; a non-empty string is parsed (only `ValueError` is
caught, so a truthy non-string would raise `TypeError` in the source —
theorems restrict to `deadline_checkable` jobs); a parsed past date
reports the literal overdue magnitude, a near date the urgent message. -/
def deadline_problems (cfg : Config) (today : Date) (dl : Value) : List String :=
  if truthy dl then
    match dl with
    | .vStr s =>
      match parseDate s with
      | some d =>
        let days_to_deadline := dateDiff d today
        if days_to_deadline < 0 then
          ["Заказ просрочен на " ++ toString days_to_deadline.natAbs ++ " дней"]
        else if days_to_deadline ≤ cfg.emergency_threshold_days then
          ["Срочный заказ (осталось " ++ toString days_to_deadline ++ " дней)"]
        else []
      | none => ["Некорректный формат даты дедлайна: " ++ s]
    | _ => []
  else ["Отсутствует срок сдачи"]

/-- The `deadline` field, when present and truthy, is a string (otherwise
`identify_problematic_orders` would raise an uncaught `TypeError`). -/
def deadline_checkable (j : Job) : Bool :=
  match jLookup "deadline" j with
  | none => true
  | some (.vStr _) => true
  | some v => !truthy v

/-- The accumulated problem list of one order in
`identify_problematic_orders`, in the order the source appends them. -/
def problemsOf (cfg : Config) (today : Date) (order : Job) : List String :=
  (if truthy (jGetD order "order_id" .vNone) then [] else ["Отсутствует номер заказа"])
  ++ (if truthy (jGetD order "customer" .vNone) then [] else ["Отсутствует информация о заказчике"])
  ++ (if truthy (jGetD order "quantity" .vNone) then [] else ["Отсутствует информация о количестве"])
  ++ deadline_problems cfg today (jGetD order "deadline" (.vStr ""))

/-- The loop of `identify_problematic_orders` in state-passing form: the
first component is the queue as the loop leaves it (each order is read
and passed through untouched), the second the collected problem records
(`order.copy()` with the `problems` key set). -/
def identify_loop (cfg : Config) (today : Date) : List Job → List Job × List Job
  | [] => ([], [])
  | order :: rest =>
    let problems := problemsOf cfg today order
    let st := identify_loop cfg today rest
    (order :: st.1,
     if !problems.isEmpty then setField order "problems" (.vStrList problems) :: st.2 else st.2)

/-- `identify_problematic_orders`: the input queue as left by the pass,
together with the list of annotated copies of the problematic orders. -/
def identify_problematic_orders (cfg : Config) (today : Date) (queue : List Job) :
    List Job × List Job :=
  identify_loop cfg today queue

/- ---------------- helpers for theorem statements ---------------- -/

/-- Number of jobs whose `order_id` is empty/missing (falsy). -/
def countNoId (queue : List Job) : Nat :=
  (queue.filter (fun j => !truthy (getId j))).length

/-- Two records agree on every field outside `ks`. -/
def agreesExcept (ks : List String) (a b : Job) : Prop :=
  ∀ k : String, k ∉ ks → jLookup k a = jLookup k b

/-- The last job of a batch carrying the id `v`. -/
def lastWithId (v : Value) (orders : List Job) : Option Job :=
  (orders.filter (fun j => getId j == v)).getLast?

/-- `withPreservedPosition` leaves the incoming record intact up to its
`queue_position` field. -/
def qpVariant (inc j : Job) : Prop :=
  j = inc ∨ ∃ v, j = setField inc "queue_position" v

/-- A fixed reference date used by concrete witnesses. -/
def sampleToday : Date := ⟨12, 10, 2026⟩

/-- The scoring formula as the specification words it (§4.2): `score =
days * deadline_weight + urgency_bucket * priority_modifier *
priority_weight` with the two-band bucket. Stated independently of
`calculate_priority_score` for comparison. -/
def spec_score (cfg : Config) (today : Date) (order : Job) : ℚ :=
  let days := calculate_days_to_deadline today (jGetD order "deadline" (.vStr ""))
  let urgency_bucket : ℚ := if days ≤ cfg.emergency_threshold_days then 1 else 3
  (days : ℚ) * cfg.deadline_weight
    + urgency_bucket * priority_modifier (getPriorityText order) * cfg.customer_priority_weight

/- ================================================================
   Theorems
   ================================================================ -/

/-- Claim C4: the priority modifier is a case-insensitive substring match
on the priority hint — a hint containing the urgent/high keyword yields
0.5 (first match wins), otherwise the low keyword yields 2.0, otherwise
1.0; hints equal after lowercasing get the same modifier. -/
theorem priority_modifier_cases (hint : String) :
    (∀ other : String, pyLower hint = pyLower other →
        priority_modifier hint = priority_modifier other)
    ∧ (strContainsB (pyLower hint) "срочно" = true ∨ strContainsB (pyLower hint) "высокий" = true →
        priority_modifier hint = 1/2)
    ∧ (strContainsB (pyLower hint) "срочно" = false → strContainsB (pyLower hint) "высокий" = false →
        strContainsB (pyLower hint) "низкий" = true → priority_modifier hint = 2)
    ∧ (strContainsB (pyLower hint) "срочно" = false → strContainsB (pyLower hint) "высокий" = false →
        strContainsB (pyLower hint) "низкий" = false → priority_modifier hint = 1) := by
  refine ⟨?_, ?_, ?_, ?_⟩
  · intro other h
    simp only [priority_modifier, h]
  · intro h
    rcases h with h | h <;> simp [priority_modifier, h]
  · intro h1 h2 h3
    simp [priority_modifier, h1, h2, h3]
  · intro h1 h2 h3
    simp [priority_modifier, h1, h2, h3]

theorem priority_modifier_cases_witness :
    priority_modifier "СРОЧНО, но НИЗКИЙ" = 1/2
    ∧ priority_modifier "низкий" = 2
    ∧ priority_modifier "обычный" = 1
    ∧ priority_modifier "Срочно" = priority_modifier "срочно" :=
  ⟨(priority_modifier_cases "СРОЧНО, но НИЗКИЙ").2.1 (Or.inl (by decide)),
   (priority_modifier_cases "низкий").2.2.1 (by decide) (by decide) (by decide),
   (priority_modifier_cases "обычный").2.2.2 (by decide) (by decide) (by decide),
   (priority_modifier_cases "Срочно").1 "срочно" (by decide)⟩

/-- Claim C5: for every job and configuration the score equals
`days * deadline_weight + urgency_bucket * priority_modifier *
priority_weight` with the two-band urgency bucket, and the configured
defaults are 0.7, 0.3 and 3. -/
theorem priority_score_formula (cfg : Config) (today : Date) (order : Job)
    (hw : wfPriority order = true) :
    calculate_priority_score cfg today order = spec_score cfg today order
    ∧ defaultConfig.deadline_weight = 7/10
    ∧ defaultConfig.customer_priority_weight = 3/10
    ∧ defaultConfig.emergency_threshold_days = 3 :=
  ⟨rfl, rfl, rfl, rfl⟩

theorem priority_score_formula_witness :
    wfPriority [("priority", Value.vStr "срочно")] = true
    ∧ (calculate_priority_score defaultConfig sampleToday [("priority", Value.vStr "срочно")] =
          spec_score defaultConfig sampleToday [("priority", Value.vStr "срочно")]
        ∧ defaultConfig.deadline_weight = 7/10
        ∧ defaultConfig.customer_priority_weight = 3/10
        ∧ defaultConfig.emergency_threshold_days = 3) :=
  ⟨by decide, priority_score_formula defaultConfig sampleToday _ (by decide)⟩

/-- Claim C6: `days_remaining` is total, never negative, yields the
sentinel 999 on any unparseable (in particular empty) input, and clamps
past deadlines to 0. -/
theorem days_remaining_spec (s : String) (today : Date) :
    0 ≤ days_remaining today s
    ∧ (parseDate s = none → days_remaining today s = 999)
    ∧ (∀ d, parseDate s = some d → days_remaining today s = max (dateDiff d today) 0)
    ∧ (∀ d, parseDate s = some d → dateDiff d today ≤ 0 → days_remaining today s = 0) := by
  by_cases hs : s = ""
  · subst hs
    have hp : parseDate "" = none := rfl
    have h999 : days_remaining today "" = 999 := rfl
    refine ⟨by rw [h999]; decide, fun _ => h999, ?_, ?_⟩
    · intro d hd
      rw [hp] at hd
      exact Option.noConfusion hd
    · intro d hd
      rw [hp] at hd
      exact Option.noConfusion hd
  · have hsb : (s == "") = false := by
      simp only [beq_eq_false_iff_ne, ne_eq]
      exact hs
    cases hp : parseDate s with
    | none =>
      have h999 : days_remaining today s = 999 := by
        simp only [days_remaining, calculate_days_to_deadline, hsb]
        rw [hp]
        rfl
      refine ⟨by rw [h999]; decide, fun _ => h999, ?_, ?_⟩
      · intro d hd
        exact Option.noConfusion hd
      · intro d hd
        exact Option.noConfusion hd
    | some d0 =>
      have hval : days_remaining today s = max (dateDiff d0 today) 0 := by
        simp only [days_remaining, calculate_days_to_deadline, hsb]
        rw [hp]
        rfl
      refine ⟨?_, ?_, ?_, ?_⟩
      · rw [hval]
        exact le_max_right _ _
      · intro h
        exact Option.noConfusion h
      · intro d hd
        injection hd with h
        subst h
        exact hval
      · intro d hd hle
        injection hd with h
        subst h
        rw [hval]
        exact max_eq_right hle


theorem days_remaining_spec_witness :
    parseDate "31.02.2024" = none ∧ days_remaining sampleToday "31.02.2024" = 999
    ∧ parseDate "01.01.2020" = some ⟨1, 1, 2020⟩ ∧ dateDiff ⟨1, 1, 2020⟩ sampleToday ≤ 0
    ∧ days_remaining sampleToday "01.01.2020" = 0 :=
  ⟨by decide, (days_remaining_spec "31.02.2024" sampleToday).2.1 (by decide),
   by decide, by decide,
   (days_remaining_spec "01.01.2020" sampleToday).2.2.2 ⟨1, 1, 2020⟩ (by decide) (by decide)⟩

/-- Claim C1 (counterexample): a new job with a missing `order_id`, merged
into an empty queue, does not appear in the result at all — it is dropped,
not treated as a fresh insertion. -/
theorem merge_drops_missing_id_job :
    merge_with_existing_queue defaultConfig sampleToday
      [[("customer", Value.vStr "X")]] [] = [] := by
  decide

/-- Claim C7 (counterexample): a new job with an empty `order_id`, merged
into an empty queue, is dropped, so the result does not contain the id
union of the inputs. -/
theorem merge_drops_empty_id_job :
    merge_with_existing_queue defaultConfig sampleToday
      [[("order_id", Value.vStr "")]] [] = []
    ∧ idsOf [[("order_id", Value.vStr "")]] = [Value.vStr ""] := by
  exact ⟨by decide, by decide⟩

/-- Claim C3 (counterexample): `sort_orders` itself does not assign
`queue_position = index + 1`; a stale position value survives sorting
unchanged. -/
theorem sort_orders_keeps_old_queue_position :
    (sort_orders defaultConfig sampleToday
        [[("queue_position", Value.vInt 7)]]).map (jLookup "queue_position")
      = [some (Value.vInt 7)] := by
  decide

/-- Claim C2 (code-bug evaluation): the round trip
`dataframe_to_queue (queue_to_dataframe q)` does not reproduce `q` —
the reverse rename dict is built inverted, so records come back keyed by
the Russian display labels and the original field names are gone. -/
theorem round_trip_yields_display_labels :
    dataframe_to_queue (queue_to_dataframe [[("order_id", Value.vStr "1")]]) =
      [[("Номер заказа", Value.vStr "1"), ("priority_score", Value.vNone)]]
    ∧ (dataframe_to_queue (queue_to_dataframe [[("order_id", Value.vStr "1")]])).map
        (jLookup "order_id") = [none] := by
  exact ⟨by decide, by decide⟩

/- ---------------- record-level helper lemmas ---------------- -/

theorem jLookup_setField_same (j : Job) (k : String) (v : Value) :
    jLookup k (setField j k v) = some v := by
  induction j with
  | nil => simp [setField, jLookup]
  | cons p rest ih =>
    obtain ⟨k2, v2⟩ := p
    by_cases h2 : k2 = k
    · subst h2
      simp [setField, jLookup]
    · simp [setField, jLookup, h2, ih]

theorem jLookup_setField_ne (j : Job) {k k' : String} (v : Value) (h : k' ≠ k) :
    jLookup k' (setField j k v) = jLookup k' j := by
  induction j with
  | nil => simp [setField, jLookup, Ne.symm h]
  | cons p rest ih =>
    obtain ⟨k2, v2⟩ := p
    by_cases h2 : k2 = k
    · subst h2
      simp [setField, jLookup, Ne.symm h]
    · simp [setField, jLookup, h2, ih]

theorem setField_setField_same (j : Job) (k : String) (v w : Value) :
    setField (setField j k v) k w = setField j k w := by
  induction j with
  | nil => simp [setField]
  | cons p rest ih =>
    obtain ⟨k2, v2⟩ := p
    by_cases h2 : k2 = k
    · subst h2
      simp [setField]
    · simp [setField, h2, ih]

theorem getId_setField (j : Job) {k : String} (v : Value) (h : k ≠ "order_id") :
    getId (setField j k v) = getId j := by
  unfold getId
  rw [jLookup_setField_ne j v (Ne.symm h)]

theorem scoreKey_setField (j : Job) {k : String} (v : Value) (h : k ≠ "priority_score") :
    scoreKey (setField j k v) = scoreKey j := by
  unfold scoreKey jGetD
  rw [jLookup_setField_ne j v (Ne.symm h)]

theorem score_setField_other (cfg : Config) (today : Date) (j : Job) {k : String} (v : Value)
    (hd : k ≠ "deadline") (hp : k ≠ "priority") :
    calculate_priority_score cfg today (setField j k v) = calculate_priority_score cfg today j := by
  unfold calculate_priority_score getPriorityText jGetD
  rw [jLookup_setField_ne j v (Ne.symm hd), jLookup_setField_ne j v (Ne.symm hp)]

theorem getId_setScore (cfg : Config) (today : Date) (j : Job) :
    getId (setScore cfg today j) = getId j :=
  getId_setField j _ (by decide)

theorem scoreKey_setScore (cfg : Config) (today : Date) (j : Job) :
    scoreKey (setScore cfg today j) = calculate_priority_score cfg today j := by
  unfold setScore scoreKey jGetD
  rw [jLookup_setField_same]
  rfl

theorem setScore_setScore (cfg : Config) (today : Date) (j : Job) :
    setScore cfg today (setScore cfg today j) = setScore cfg today j := by
  unfold setScore
  rw [score_setField_other cfg today j _ (by decide) (by decide), setField_setField_same]

theorem getId_withPreservedPosition (e inc : Job) :
    getId (withPreservedPosition e inc) = getId inc := by
  unfold withPreservedPosition
  cases jLookup "queue_position" e with
  | none => rfl
  | some v =>
    show getId (if v ≠ Value.vNone then setField inc "queue_position" v else inc) = getId inc
    by_cases hv : v = Value.vNone
    · rw [if_neg (not_not_intro hv)]
    · rw [if_pos hv]
      exact getId_setField inc v (by decide)

theorem withPreservedPosition_qpVariant (e inc : Job) :
    qpVariant inc (withPreservedPosition e inc) := by
  unfold withPreservedPosition
  cases jLookup "queue_position" e with
  | none => exact Or.inl rfl
  | some v =>
    show qpVariant inc (if v ≠ Value.vNone then setField inc "queue_position" v else inc)
    by_cases hv : v = Value.vNone
    · rw [if_neg (not_not_intro hv)]
      exact Or.inl rfl
    · rw [if_pos hv]
      exact Or.inr ⟨v, rfl⟩

theorem getId_qpVariant {inc j : Job} (h : qpVariant inc j) : getId j = getId inc := by
  rcases h with rfl | ⟨v, rfl⟩
  · rfl
  · exact getId_setField inc v (by decide)

theorem jLookup_qpVariant {inc j : Job} (h : qpVariant inc j) {k : String}
    (hk : k ≠ "queue_position") : jLookup k j = jLookup k inc := by
  rcases h with rfl | ⟨v, rfl⟩
  · rfl
  · exact jLookup_setField_ne inc v hk

theorem jLookup_append_missing (j : Job) (k : String) (v : Value)
    (h : jLookup k j = none) : jLookup k (j ++ [(k, v)]) = some v := by
  induction j with
  | nil => simp [jLookup]
  | cons p rest ih =>
    obtain ⟨k2, v2⟩ := p
    by_cases h2 : k2 = k
    · subst h2
      simp [jLookup] at h
    · simp only [jLookup, List.cons_append] at h ⊢
      simp only [beq_iff_eq, h2, if_false, if_neg h2] at h ⊢
      exact ih h

theorem jLookup_zip_not_mem (ks : List String) (vs : List Value) (k : String)
    (h : k ∉ ks) : jLookup k (ks.zip vs) = none := by
  induction ks generalizing vs with
  | nil => simp [jLookup]
  | cons k2 rest ih =>
    cases vs with
    | nil => simp [jLookup]
    | cons v2 vrest =>
      have h2 : k2 ≠ k := fun he => h (he ▸ List.mem_cons_self _ _)
      simp only [List.zip_cons_cons, jLookup, beq_iff_eq, h2, if_false, if_neg h2]
      exact ih vrest (fun hm => h (List.mem_cons_of_mem _ hm))

theorem map_id_of_mem {α : Type} {f : α → α} : ∀ {l : List α}, (∀ x ∈ l, f x = x) → l.map f = l
  | [], _ => rfl
  | a :: l, h => by
    simp only [List.map_cons, h a (List.mem_cons_self a l)]
    rw [map_id_of_mem (fun x hx => h x (List.mem_cons_of_mem a hx))]

/-- Claim C8: sorting is idempotent — a second `sort_orders` pass
reproduces the same order and the same `queue_position` values (which
`sort_orders` never touches). -/
theorem sort_orders_idempotent (cfg : Config) (today : Date) (orders : List Job)
    (hw : ∀ j ∈ orders, wfPriority j = true) :
    sort_orders cfg today (sort_orders cfg today orders) = sort_orders cfg today orders := by
  unfold sort_orders
  have hfix : ∀ x ∈ List.insertionSort jobLE (orders.map (setScore cfg today)),
      setScore cfg today x = x := by
    intro x hx
    rw [List.mem_insertionSort] at hx
    obtain ⟨y, _, rfl⟩ := List.mem_map.mp hx
    exact setScore_setScore cfg today y
  rw [map_id_of_mem hfix]
  exact List.Sorted.insertionSort_eq (List.sorted_insertionSort _ _)

theorem sort_orders_idempotent_witness :
    (∀ j ∈ ([[("order_id", Value.vStr "1"), ("deadline", Value.vStr "13.10.2026")],
             [("order_id", Value.vStr "2"), ("priority", Value.vStr "низкий")]] : List Job),
        wfPriority j = true)
    ∧ sort_orders defaultConfig sampleToday (sort_orders defaultConfig sampleToday
          [[("order_id", Value.vStr "1"), ("deadline", Value.vStr "13.10.2026")],
           [("order_id", Value.vStr "2"), ("priority", Value.vStr "низкий")]])
        = sort_orders defaultConfig sampleToday
          [[("order_id", Value.vStr "1"), ("deadline", Value.vStr "13.10.2026")],
           [("order_id", Value.vStr "2"), ("priority", Value.vStr "низкий")]] :=
  ⟨by decide, sort_orders_idempotent defaultConfig sampleToday _ (by decide)⟩

/- ---------------- renumbering lemmas ---------------- -/

theorem length_renumber_aux : ∀ (l : List Job) (i : Nat), (renumber_aux i l).length = l.length
  | [], _ => rfl
  | _ :: rest, i => by
    simp only [renumber_aux, List.length_cons, length_renumber_aux rest (i + 1)]

theorem renumber_aux_positions : ∀ (l : List Job) (i : Nat),
    (renumber_aux i l).map (jLookup "queue_position")
      = (List.range l.length).map (fun n : Nat => some (Value.vInt (i + n + 1)))
  | [], i => by simp [renumber_aux]
  | j :: rest, i => by
    rw [show renumber_aux i (j :: rest)
        = setField j "queue_position" (.vInt (i + 1)) :: renumber_aux (i + 1) rest from rfl]
    rw [List.map_cons, jLookup_setField_same, renumber_aux_positions rest (i + 1)]
    rw [List.length_cons, List.range_succ_eq_map, List.map_cons, List.map_map]
    refine congrArg₂ List.cons ?_ ?_
    · norm_num
    · apply List.map_congr_left
      intro n _
      show some (Value.vInt ((i + 1 : Nat) + (n : Int) + 1))
        = some (Value.vInt ((i : Int) + ((n + 1 : Nat) : Int) + 1))
      congr 1
      congr 1
      push_cast
      ring

theorem renumber_positions (l : List Job) :
    (renumber l).map (jLookup "queue_position")
      = (List.range l.length).map (fun n : Nat => some (Value.vInt (n + 1))) := by
  unfold renumber
  rw [renumber_aux_positions l 0]
  apply List.map_congr_left
  intro n _
  norm_num

theorem mem_renumber_aux : ∀ {l : List Job} {i : Nat} {b : Job}, b ∈ renumber_aux i l →
    ∃ x ∈ l, ∃ n : Nat, b = setField x "queue_position" (.vInt n)
  | [], _, b, hb => by simp [renumber_aux] at hb
  | j :: rest, i, b, hb => by
    simp only [renumber_aux, List.mem_cons] at hb
    rcases hb with rfl | hb
    · exact ⟨j, List.mem_cons_self _ _, i + 1, rfl⟩
    · obtain ⟨x, hx, n, rfl⟩ := mem_renumber_aux hb
      exact ⟨x, List.mem_cons_of_mem _ hx, n, rfl⟩

theorem sorted_renumber_aux : ∀ {l : List Job} (i : Nat), List.Sorted jobLE l →
    List.Sorted jobLE (renumber_aux i l)
  | [], _, _ => List.sorted_nil
  | j :: rest, i, h => by
    rw [List.sorted_cons] at h
    show List.Sorted jobLE (setField j "queue_position" (.vInt (i + 1)) :: renumber_aux (i + 1) rest)
    rw [List.sorted_cons]
    constructor
    · intro b hb
      obtain ⟨x, hx, n, rfl⟩ := mem_renumber_aux hb
      show scoreKey (setField j "queue_position" (.vInt (i + 1))) ≤
        scoreKey (setField x "queue_position" (.vInt n))
      rw [scoreKey_setField _ _ (by decide), scoreKey_setField _ _ (by decide)]
      exact h.1 x hx
    · exact sorted_renumber_aux (i + 1) h.2

/-- Claim C3 (amended): after a merge the queue carries the contiguous
`queue_position` numbering 1..N consistent with ascending stored
`priority_score` order (the sort is stable, so ties keep input order);
the numbering is applied by the merge after sorting, not by
`sort_orders` itself. -/
theorem merge_positions_contiguous_sorted (cfg : Config) (today : Date)
    (new_orders current_queue : List Job)
    (hw : ∀ j ∈ new_orders ++ current_queue, wfPriority j = true) :
    (merge_with_existing_queue cfg today new_orders current_queue).map (jLookup "queue_position")
      = (List.range (merge_with_existing_queue cfg today new_orders current_queue).length).map
          (fun n : Nat => some (Value.vInt (n + 1)))
    ∧ List.Sorted jobLE (merge_with_existing_queue cfg today new_orders current_queue) := by
  have hR : merge_with_existing_queue cfg today new_orders current_queue
      = renumber (sort_orders cfg today
          ((new_orders.foldl merge_step (current_queue, idsOf current_queue)).1)) := rfl
  rw [hR]
  constructor
  · rw [show (renumber (sort_orders cfg today
        ((new_orders.foldl merge_step (current_queue, idsOf current_queue)).1))).length
      = (sort_orders cfg today
          ((new_orders.foldl merge_step (current_queue, idsOf current_queue)).1)).length
      from length_renumber_aux _ 0]
    exact renumber_positions _
  · exact sorted_renumber_aux 0 (List.sorted_insertionSort _ _)

theorem merge_positions_contiguous_sorted_witness :
    (∀ j ∈ ([[("order_id", Value.vStr "2"), ("priority", Value.vStr "срочно")]] ++
        [[("order_id", Value.vStr "1"), ("queue_position", Value.vInt 1)]] : List Job),
      wfPriority j = true)
    ∧ ((merge_with_existing_queue defaultConfig sampleToday
          [[("order_id", Value.vStr "2"), ("priority", Value.vStr "срочно")]]
          [[("order_id", Value.vStr "1"), ("queue_position", Value.vInt 1)]]).map
            (jLookup "queue_position")
        = (List.range (merge_with_existing_queue defaultConfig sampleToday
            [[("order_id", Value.vStr "2"), ("priority", Value.vStr "срочно")]]
            [[("order_id", Value.vStr "1"), ("queue_position", Value.vInt 1)]]).length).map
            (fun n : Nat => some (Value.vInt (n + 1)))
        ∧ List.Sorted jobLE (merge_with_existing_queue defaultConfig sampleToday
            [[("order_id", Value.vStr "2"), ("priority", Value.vStr "срочно")]]
            [[("order_id", Value.vStr "1"), ("queue_position", Value.vInt 1)]])) :=
  ⟨by decide, merge_positions_contiguous_sorted defaultConfig sampleToday _ _ (by decide)⟩

/- ---------------- id-tracking lemmas for the merge ---------------- -/

theorem merge_step_cases (st : List Job × List Value) (o : Job) :
    (truthy (getId o) = true ∧ getId o ∉ st.2
        ∧ merge_step st o = (st.1 ++ [o], st.2 ++ [getId o]))
    ∨ (getId o ∈ st.2
        ∧ merge_step st o = (update_existing st.1 (getId o) o, st.2))
    ∨ (truthy (getId o) = false ∧ getId o ∉ st.2
        ∧ merge_step st o = st) := by
  by_cases h1 : truthy (getId o) = true
  · by_cases h2 : getId o ∈ st.2
    · exact Or.inr (Or.inl ⟨h2, by simp [merge_step, h1, h2]⟩)
    · exact Or.inl ⟨h1, h2, by simp [merge_step, h1, h2]⟩
  · have h1' : truthy (getId o) = false := by simpa using h1
    by_cases h2 : getId o ∈ st.2
    · exact Or.inr (Or.inl ⟨h2, by simp [merge_step, h1', h2]⟩)
    · exact Or.inr (Or.inr ⟨h1', h2, by simp [merge_step, h1', h2]⟩)

theorem idsOf_append_one (q : List Job) (o : Job) :
    idsOf (q ++ [o]) = idsOf q ++ [getId o] := by
  simp [idsOf]

theorem idsOf_update_existing : ∀ (q : List Job) {oid : Value} {inc : Job},
    getId inc = oid → idsOf (update_existing q oid inc) = idsOf q
  | [], _, _, _ => rfl
  | e :: rest, oid, inc, h => by
    by_cases he : getId e = oid
    · rw [show update_existing (e :: rest) oid inc = withPreservedPosition e inc :: rest from by
        simp [update_existing, he]]
      show getId (withPreservedPosition e inc) :: idsOf rest = getId e :: idsOf rest
      rw [getId_withPreservedPosition, h, he]
    · rw [show update_existing (e :: rest) oid inc = e :: update_existing rest oid inc from by
        simp [update_existing, he]]
      show getId e :: idsOf (update_existing rest oid inc) = getId e :: idsOf rest
      rw [idsOf_update_existing rest h]

theorem idsOf_renumber_aux : ∀ (l : List Job) (i : Nat), idsOf (renumber_aux i l) = idsOf l
  | [], _ => rfl
  | j :: rest, i => by
    show getId (setField j "queue_position" (.vInt (i + 1))) :: idsOf (renumber_aux (i + 1) rest)
      = getId j :: idsOf rest
    rw [getId_setField j _ (by decide), idsOf_renumber_aux rest (i + 1)]

theorem idsOf_map_setScore (cfg : Config) (today : Date) (l : List Job) :
    idsOf (l.map (setScore cfg today)) = idsOf l := by
  unfold idsOf
  rw [List.map_map]
  exact List.map_congr_left (fun x _ => getId_setScore cfg today x)

theorem idsOf_sort_perm (cfg : Config) (today : Date) (l : List Job) :
    (idsOf (sort_orders cfg today l)).Perm (idsOf l) := by
  unfold sort_orders
  have h := (List.perm_insertionSort jobLE (l.map (setScore cfg today))).map getId
  rw [show List.map getId (l.map (setScore cfg today)) = idsOf l
    from idsOf_map_setScore cfg today l] at h
  exact h

theorem merge_fold_falsy : ∀ (new_orders : List Job) (st : List Job × List Value),
    ((idsOf (new_orders.foldl merge_step st).1).filter (fun v => !truthy v))
      = ((idsOf st.1).filter (fun v => !truthy v))
  | [], _ => rfl
  | o :: rest, st => by
    rw [List.foldl_cons, merge_fold_falsy rest (merge_step st o)]
    rcases merge_step_cases st o with ⟨h1, _, heq⟩ | ⟨_, heq⟩ | ⟨_, _, heq⟩
    · rw [heq]
      show ((idsOf (st.1 ++ [o])).filter (fun v => !truthy v)) = _
      rw [idsOf_append_one, List.filter_append]
      simp [h1]
    · rw [heq]
      show ((idsOf (update_existing st.1 (getId o) o)).filter (fun v => !truthy v)) = _
      rw [idsOf_update_existing st.1 rfl]
    · rw [heq]

theorem countNoId_eq (q : List Job) :
    countNoId q = ((idsOf q).filter (fun v => !truthy v)).length := by
  unfold countNoId idsOf
  rw [List.filter_map, List.length_map]
  rfl

/-- Claim C1 (amended): merging never inserts a job with an empty/missing
`order_id` as a fresh entry — the number of such jobs in the merged queue
always equals their number in the current queue (an id-less new job is
dropped, or replaces an existing entry carrying the same empty id value). -/
theorem merge_preserves_unidentified_count (cfg : Config) (today : Date)
    (new_orders current_queue : List Job)
    (hw : ∀ j ∈ new_orders ++ current_queue, wfPriority j = true) :
    countNoId (merge_with_existing_queue cfg today new_orders current_queue)
      = countNoId current_queue := by
  have hR : merge_with_existing_queue cfg today new_orders current_queue
      = renumber (sort_orders cfg today
          ((new_orders.foldl merge_step (current_queue, idsOf current_queue)).1)) := rfl
  rw [hR, countNoId_eq, countNoId_eq]
  unfold renumber
  rw [idsOf_renumber_aux]
  rw [((idsOf_sort_perm cfg today _).filter (fun v => !truthy v)).length_eq]
  rw [merge_fold_falsy new_orders (current_queue, idsOf current_queue)]

theorem merge_preserves_unidentified_count_witness :
    (∀ j ∈ ([[("customer", Value.vStr "Y")]] ++ ([] : List Job)), wfPriority j = true)
    ∧ countNoId (merge_with_existing_queue defaultConfig sampleToday
        [[("customer", Value.vStr "Y")]] []) = countNoId [] :=
  ⟨by decide, merge_preserves_unidentified_count defaultConfig sampleToday _ _ (by decide)⟩

/- ---------------- anomaly-pass lemmas (C9) ---------------- -/

theorem identify_loop_fst (cfg : Config) (today : Date) : ∀ queue : List Job,
    (identify_loop cfg today queue).1 = queue
  | [] => rfl
  | order :: rest => by
    show order :: (identify_loop cfg today rest).1 = order :: rest
    rw [identify_loop_fst cfg today rest]

theorem identify_loop_snd (cfg : Config) (today : Date) : ∀ (queue : List Job) (p : Job),
    p ∈ (identify_loop cfg today queue).2 →
    ∃ o ∈ queue, p = setField o "problems" (.vStrList (problemsOf cfg today o))
      ∧ problemsOf cfg today o ≠ []
  | [], p, hp => by simp [identify_loop] at hp
  | order :: rest, p, hp => by
    have hsnd : (identify_loop cfg today (order :: rest)).2
        = if !(problemsOf cfg today order).isEmpty
            then setField order "problems" (.vStrList (problemsOf cfg today order))
              :: (identify_loop cfg today rest).2
            else (identify_loop cfg today rest).2 := rfl
    rw [hsnd] at hp
    by_cases hpe : (problemsOf cfg today order).isEmpty = true
    · rw [if_neg (by simp [hpe])] at hp
      obtain ⟨o, ho, h⟩ := identify_loop_snd cfg today rest p hp
      exact ⟨o, List.mem_cons_of_mem _ ho, h⟩
    · rw [if_pos (by simpa using hpe)] at hp
      rcases List.mem_cons.mp hp with rfl | hp'
      · refine ⟨order, List.mem_cons_self _ _, rfl, ?_⟩
        intro hnil
        exact hpe (by simp [hnil])
      · obtain ⟨o, ho, h⟩ := identify_loop_snd cfg today rest p hp'
        exact ⟨o, List.mem_cons_of_mem _ ho, h⟩

/-- Claim C9: `identify_problematic_orders` never mutates the queue — the
pass leaves every job with exactly the fields it had, and each reported
problematic order is a copy of an input job with only the `problems`
annotation set. -/
theorem identify_problems_pure (cfg : Config) (today : Date) (queue : List Job)
    (hw : ∀ j ∈ queue, deadline_checkable j = true) :
    (identify_problematic_orders cfg today queue).1 = queue
    ∧ ∀ p ∈ (identify_problematic_orders cfg today queue).2,
        ∃ o ∈ queue, p = setField o "problems" (.vStrList (problemsOf cfg today o))
          ∧ problemsOf cfg today o ≠ [] :=
  ⟨identify_loop_fst cfg today queue, fun p hp => identify_loop_snd cfg today queue p hp⟩

theorem identify_problems_pure_witness :
    (∀ j ∈ ([[("order_id", Value.vStr "1")]] : List Job), deadline_checkable j = true)
    ∧ ((identify_problematic_orders defaultConfig sampleToday
          [[("order_id", Value.vStr "1")]]).1 = [[("order_id", Value.vStr "1")]]
      ∧ ∀ p ∈ (identify_problematic_orders defaultConfig sampleToday
            [[("order_id", Value.vStr "1")]]).2,
          ∃ o ∈ ([[("order_id", Value.vStr "1")]] : List Job),
            p = setField o "problems" (.vStrList (problemsOf defaultConfig sampleToday o))
              ∧ problemsOf defaultConfig sampleToday o ≠ []) :=
  ⟨by decide, identify_problems_pure defaultConfig sampleToday _ (by decide)⟩

/- ---------------- formatter lemmas (C10) ---------------- -/

theorem ps_not_in_select_fold : ∀ (cs acc : List String), "priority_score" ∉ acc →
    "priority_score" ∉ cs.foldl
      (fun a c => if !(a.contains c) && !(c == "priority_score") then a ++ [c] else a) acc
  | [], _, h => h
  | c :: rest, acc, h => by
    rw [List.foldl_cons]
    apply ps_not_in_select_fold rest
    by_cases hc : (!(acc.contains c) && !(c == "priority_score")) = true
    · rw [if_pos hc]
      intro hmem
      rcases List.mem_append.mp hmem with h1 | h1
      · exact h h1
      · have hcne : (c == "priority_score") = false := by
          have := (Bool.and_eq_true _ _).mp hc
          simpa using this.2
        rw [beq_eq_false_iff_ne] at hcne
        have h2 : "priority_score" = c := by simpa using h1
        exact hcne h2.symm
    · rw [if_neg hc]
      exact h

theorem mem_foldl_pairs {β γ : Type} (f : β → γ) (cond : β → Bool) :
    ∀ (m : List β) (acc : List γ) (x : γ),
      x ∈ m.foldl (fun a pr => if cond pr then a ++ [f pr] else a) acc →
      x ∈ acc ∨ ∃ pr ∈ m, x = f pr
  | [], _, _, hx => Or.inl hx
  | pr :: rest, acc, x, hx => by
    rw [List.foldl_cons] at hx
    rcases mem_foldl_pairs f cond rest _ x hx with h | ⟨pr', hpr', rfl⟩
    · by_cases hc : cond pr = true
      · rw [if_pos hc] at h
        rcases List.mem_append.mp h with h1 | h1
        · exact Or.inl h1
        · exact Or.inr ⟨pr, List.mem_cons_self _ _, by simpa using h1⟩
      · rw [if_neg hc] at h
        exact Or.inl h
    · exact Or.inr ⟨pr', List.mem_cons_of_mem _ hpr', rfl⟩

theorem ps_not_in_to_table_cols (q : List Job) :
    "priority_score" ∉ (queue_to_dataframe q).cols := by
  intro hmem
  obtain ⟨c, hc, hren⟩ := List.mem_map.mp hmem
  have hcs : "priority_score" ∉ select_columns (toDataFrame q) := by
    apply ps_not_in_select_fold
    intro h0
    have h1 := (List.mem_filter.mp h0).1
    revert h1
    decide
  have hvals : ∀ p ∈ column_mapping, p.2 ≠ "priority_score" := by decide
  cases hal : assocLookup column_mapping c with
  | none =>
    rw [hal] at hren
    simp only [Option.getD_none] at hren
    exact hcs (hren ▸ hc)
  | some lbl =>
    rw [hal] at hren
    simp only [Option.getD_some] at hren
    obtain ⟨pr, hfind, hsnd⟩ := Option.map_eq_some'.mp hal
    have hpr := List.mem_of_find?_eq_some hfind
    exact hvals pr hpr (hsnd.trans hren)

theorem ps_not_in_renamed_cols (df : Table) (h : "priority_score" ∉ df.cols) :
    "priority_score" ∉ df.cols.map (fun c => (assocLookup (rename_dict_of df) c).getD c) := by
  intro hmem
  obtain ⟨c, hc, hren⟩ := List.mem_map.mp hmem
  have hvals : ∀ p ∈ column_mapping_ru, p.1 ≠ "priority_score" := by decide
  cases hal : assocLookup (rename_dict_of df) c with
  | none =>
    rw [hal] at hren
    simp only [Option.getD_none] at hren
    exact h (hren ▸ hc)
  | some lbl =>
    rw [hal] at hren
    simp only [Option.getD_some] at hren
    obtain ⟨pr, hfind, hsnd⟩ := Option.map_eq_some'.mp hal
    have hpr := List.mem_of_find?_eq_some hfind
    rcases mem_foldl_pairs (fun p : String × String => (p.2, p.1))
        (fun p => df.cols.contains p.2) column_mapping_ru [] pr hpr with h0 | ⟨p0, hp0, rfl⟩
    · simp at h0
    · exact hvals p0 hp0 (hsnd.trans hren)

theorem from_table_records (df : Table) (rec : Job) (hrec : rec ∈ dataframe_to_queue df) :
    (jLookup "priority_score" rec).isSome = true
    ∧ ("priority_score" ∉ df.cols → jLookup "priority_score" rec = some Value.vNone) := by
  unfold dataframe_to_queue at hrec
  obtain ⟨ordr, hordr, hrec⟩ := List.mem_map.mp hrec
  obtain ⟨r, _, hmk⟩ := List.mem_map.mp hordr
  constructor
  · by_cases hps : (jLookup "priority_score" ordr).isSome = true
    · rw [if_pos hps] at hrec
      exact hrec ▸ hps
    · have hnone : jLookup "priority_score" ordr = none := by
        cases ho : jLookup "priority_score" ordr with
        | none => rfl
        | some v => rw [ho] at hps; simp at hps
      rw [if_neg hps] at hrec
      rw [← hrec, jLookup_append_missing _ _ _ hnone]
      rfl
  · intro hnotin
    have hnone : jLookup "priority_score" ordr = none := by
      rw [← hmk]
      exact jLookup_zip_not_mem _ _ _ (ps_not_in_renamed_cols df hnotin)
    have hps : ¬((jLookup "priority_score" ordr).isSome = true) := by
      rw [hnone]
      simp
    rw [if_neg hps] at hrec
    rw [← hrec, jLookup_append_missing _ _ _ hnone]

/-- Claim C10: every record returned by `dataframe_to_queue` carries a
`priority_score` key (set to `None` when the table lacked the column),
while `queue_to_dataframe` always excludes the `priority_score` column. -/
theorem from_table_priority_score_key (df : Table) (q : List Job) :
    (∀ rec ∈ dataframe_to_queue df, (jLookup "priority_score" rec).isSome = true
      ∧ ("priority_score" ∉ df.cols → jLookup "priority_score" rec = some Value.vNone))
    ∧ "priority_score" ∉ (queue_to_dataframe q).cols :=
  ⟨fun rec hrec => from_table_records df rec hrec, ps_not_in_to_table_cols q⟩

theorem from_table_priority_score_key_witness :
    ([("Номер заказа", Value.vStr "5"), ("priority_score", Value.vNone)] : Job)
        ∈ dataframe_to_queue ⟨["Номер заказа"], [[Value.vStr "5"]]⟩
    ∧ "priority_score" ∉ (Table.mk ["Номер заказа"] [[Value.vStr "5"]]).cols
    ∧ (jLookup "priority_score"
        ([("Номер заказа", Value.vStr "5"), ("priority_score", Value.vNone)] : Job)).isSome = true
    ∧ jLookup "priority_score"
        ([("Номер заказа", Value.vStr "5"), ("priority_score", Value.vNone)] : Job)
        = some Value.vNone
    ∧ "priority_score" ∉ (queue_to_dataframe [[("order_id", Value.vStr "5")]]).cols :=
  ⟨by decide, by decide,
   ((from_table_priority_score_key ⟨["Номер заказа"], [[Value.vStr "5"]]⟩
      [[("order_id", Value.vStr "5")]]).1 _ (by decide)).1,
   ((from_table_priority_score_key ⟨["Номер заказа"], [[Value.vStr "5"]]⟩
      [[("order_id", Value.vStr "5")]]).1 _ (by decide)).2 (by decide),
   (from_table_priority_score_key ⟨["Номер заказа"], [[Value.vStr "5"]]⟩
      [[("order_id", Value.vStr "5")]]).2⟩

/- ---------------- merge union and last-wins lemmas (C7) ---------------- -/

theorem mem_update_existing : ∀ {q : List Job} {oid : Value} {inc j : Job},
    j ∈ update_existing q oid inc → j ∈ q ∨ qpVariant inc j
  | [], _, _, _, h => Or.inl h
  | e :: rest, oid, inc, j, h => by
    by_cases he : getId e = oid
    · rw [show update_existing (e :: rest) oid inc = withPreservedPosition e inc :: rest from by
        simp [update_existing, he]] at h
      rcases List.mem_cons.mp h with rfl | h'
      · exact Or.inr (withPreservedPosition_qpVariant e inc)
      · exact Or.inl (List.mem_cons_of_mem _ h')
    · rw [show update_existing (e :: rest) oid inc = e :: update_existing rest oid inc from by
        simp [update_existing, he]] at h
      rcases List.mem_cons.mp h with rfl | h'
      · exact Or.inl (List.mem_cons_self _ _)
      · rcases mem_update_existing h' with h2 | h2
        · exact Or.inl (List.mem_cons_of_mem _ h2)
        · exact Or.inr h2

theorem update_existing_unique : ∀ {q : List Job} {oid : Value} {inc j : Job},
    getId inc = oid → (idsOf q).Nodup → oid ∈ idsOf q →
    j ∈ update_existing q oid inc → getId j = oid → qpVariant inc j
  | [], _, _, _, _, _, hins, _, _ => absurd hins (by simp [idsOf])
  | e :: rest, oid, inc, j, hinc, hnd, hins, hmem, hj => by
    have hnd' := List.nodup_cons.mp (show (getId e :: idsOf rest).Nodup from hnd)
    by_cases he : getId e = oid
    · rw [show update_existing (e :: rest) oid inc = withPreservedPosition e inc :: rest from by
        simp [update_existing, he]] at hmem
      rcases List.mem_cons.mp hmem with rfl | h'
      · exact withPreservedPosition_qpVariant e inc
      · exfalso
        apply hnd'.1
        rw [he, ← hj]
        exact List.mem_map_of_mem getId h'
    · rw [show update_existing (e :: rest) oid inc = e :: update_existing rest oid inc from by
        simp [update_existing, he]] at hmem
      rcases List.mem_cons.mp hmem with rfl | h'
      · exact absurd hj he
      · have hins' : oid ∈ idsOf rest := by
          rcases List.mem_cons.mp (show oid ∈ getId e :: idsOf rest from hins) with h0 | h0
          · exact absurd h0.symm he
          · exact h0
        exact update_existing_unique hinc hnd'.2 hins' h' hj

theorem merge_step_seen (st : List Job × List Value) (o : Job)
    (hseen : ∀ v, v ∈ st.2 ↔ v ∈ idsOf st.1) :
    ∀ v, v ∈ (merge_step st o).2 ↔ v ∈ idsOf (merge_step st o).1 := by
  intro v
  rcases merge_step_cases st o with ⟨_, _, heq⟩ | ⟨_, heq⟩ | ⟨_, _, heq⟩
  · rw [heq]
    show v ∈ st.2 ++ [getId o] ↔ v ∈ idsOf (st.1 ++ [o])
    rw [idsOf_append_one]
    simp only [List.mem_append, List.mem_singleton]
    exact or_congr (hseen v) Iff.rfl
  · rw [heq]
    show v ∈ st.2 ↔ v ∈ idsOf (update_existing st.1 (getId o) o)
    rw [idsOf_update_existing st.1 rfl]
    exact hseen v
  · rw [heq]
    exact hseen v

theorem merge_step_nodup (st : List Job × List Value) (o : Job)
    (hseen : ∀ v, v ∈ st.2 ↔ v ∈ idsOf st.1) (hnd : (idsOf st.1).Nodup) :
    (idsOf (merge_step st o).1).Nodup := by
  rcases merge_step_cases st o with ⟨_, h2, heq⟩ | ⟨_, heq⟩ | ⟨_, _, heq⟩
  · rw [heq]
    show (idsOf (st.1 ++ [o])).Nodup
    rw [idsOf_append_one, List.nodup_append]
    refine ⟨hnd, List.nodup_singleton _, ?_⟩
    intro v hv hv2
    have hvo : v = getId o := by simpa using hv2
    exact h2 ((hseen (getId o)).mpr (hvo ▸ hv))
  · rw [heq]
    show (idsOf (update_existing st.1 (getId o) o)).Nodup
    rw [idsOf_update_existing st.1 rfl]
    exact hnd
  · rw [heq]
    exact hnd

theorem merge_fold_inv : ∀ (N : List Job) (st : List Job × List Value),
    (∀ v, v ∈ st.2 ↔ v ∈ idsOf st.1) → (idsOf st.1).Nodup →
    (∀ v, v ∈ (N.foldl merge_step st).2 ↔ v ∈ idsOf (N.foldl merge_step st).1)
    ∧ (idsOf (N.foldl merge_step st).1).Nodup
  | [], _, hs, hn => ⟨hs, hn⟩
  | o :: rest, st, hs, hn => by
    rw [List.foldl_cons]
    exact merge_fold_inv rest _ (merge_step_seen st o hs) (merge_step_nodup st o hs hn)

theorem merge_fold_ids (v : Value) : ∀ (N : List Job) (st : List Job × List Value),
    (∀ w, w ∈ st.2 ↔ w ∈ idsOf st.1) →
    (v ∈ idsOf (N.foldl merge_step st).1 ↔ v ∈ idsOf st.1 ∨ (truthy v = true ∧ v ∈ idsOf N))
  | [], st, _ => by simp [idsOf]
  | o :: rest, st, hseen => by
    rw [List.foldl_cons]
    rw [merge_fold_ids v rest _ (merge_step_seen st o hseen)]
    have hmemN : v ∈ idsOf (o :: rest) ↔ v = getId o ∨ v ∈ idsOf rest := by
      show v ∈ getId o :: idsOf rest ↔ _
      exact List.mem_cons
    rcases merge_step_cases st o with ⟨h1, _, heq⟩ | ⟨h2, heq⟩ | ⟨h1, _, heq⟩
    · rw [heq, hmemN]
      show v ∈ idsOf (st.1 ++ [o]) ∨ _ ↔ _
      rw [idsOf_append_one]
      simp only [List.mem_append, List.mem_singleton]
      constructor
      · rintro ((hA | hgo) | ⟨hT, hR⟩)
        · exact Or.inl hA
        · exact Or.inr ⟨by rw [hgo]; exact h1, Or.inl hgo⟩
        · exact Or.inr ⟨hT, Or.inr hR⟩
      · rintro (hA | ⟨hT, hgo | hR⟩)
        · exact Or.inl (Or.inl hA)
        · exact Or.inl (Or.inr hgo)
        · exact Or.inr ⟨hT, hR⟩
    · rw [heq, hmemN]
      show v ∈ idsOf (update_existing st.1 (getId o) o) ∨ _ ↔ _
      rw [idsOf_update_existing st.1 rfl]
      constructor
      · rintro (hA | ⟨hT, hR⟩)
        · exact Or.inl hA
        · exact Or.inr ⟨hT, Or.inr hR⟩
      · rintro (hA | ⟨hT, hgo | hR⟩)
        · exact Or.inl hA
        · exact Or.inl (hgo ▸ (hseen (getId o)).mp h2)
        · exact Or.inr ⟨hT, hR⟩
    · rw [heq, hmemN]
      constructor
      · rintro (hA | ⟨hT, hR⟩)
        · exact Or.inl hA
        · exact Or.inr ⟨hT, Or.inr hR⟩
      · rintro (hA | ⟨hT, hgo | hR⟩)
        · exact Or.inl hA
        · rw [hgo] at hT
          rw [h1] at hT
          exact absurd hT (by simp)
        · exact Or.inr ⟨hT, hR⟩

theorem merge_fold_origin : ∀ (N : List Job) (st : List Job × List Value) (j : Job),
    j ∈ (N.foldl merge_step st).1 → getId j ∉ idsOf N → j ∈ st.1
  | [], _, _, hj, _ => hj
  | o :: rest, st, j, hj, hnotin => by
    rw [List.foldl_cons] at hj
    have hnotin' : getId j ∉ idsOf rest := fun h =>
      hnotin (List.mem_cons.mpr (Or.inr h))
    have hne : getId j ≠ getId o := fun h =>
      hnotin (List.mem_cons.mpr (Or.inl h))
    have hj' := merge_fold_origin rest _ j hj hnotin'
    rcases merge_step_cases st o with ⟨_, _, heq⟩ | ⟨_, heq⟩ | ⟨_, _, heq⟩
    · rw [heq] at hj'
      rcases List.mem_append.mp hj' with h3 | h3
      · exact h3
      · have hjo : j = o := by simpa using h3
        exact absurd (hjo ▸ rfl) hne
    · rw [heq] at hj'
      rcases mem_update_existing hj' with h3 | h3
      · exact h3
      · exact absurd (getId_qpVariant h3) hne
    · rw [heq] at hj'
      exact hj'

theorem lastWithId_cons_of_mem {v : Value} {rest : List Job} (o : Job)
    (h : v ∈ idsOf rest) : lastWithId v (o :: rest) = lastWithId v rest := by
  unfold lastWithId
  obtain ⟨x, hx, hxid⟩ := List.mem_map.mp h
  have hxf : x ∈ rest.filter (fun j => getId j == v) :=
    List.mem_filter.mpr ⟨hx, by simp [hxid]⟩
  rw [List.filter_cons]
  by_cases ho : (getId o == v) = true
  · rw [if_pos ho]
    cases hF : rest.filter (fun j => getId j == v) with
    | nil => rw [hF] at hxf; simp at hxf
    | cons b bs => rw [List.getLast?_cons_cons]
  · rw [if_neg ho]

theorem lastWithId_cons_of_not_mem {v : Value} {rest : List Job} {o : Job}
    (hvo : v = getId o) (h : v ∉ idsOf rest) : lastWithId v (o :: rest) = some o := by
  unfold lastWithId
  have hF : rest.filter (fun j => getId j == v) = [] := by
    rw [List.filter_eq_nil]
    intro x hx hpx
    apply h
    have : getId x = v := by simpa using hpx
    exact this ▸ List.mem_map_of_mem getId hx
  rw [List.filter_cons, if_pos (by simp [hvo]), hF]
  rfl

theorem merge_fold_last : ∀ (N : List Job) (st : List Job × List Value) (j : Job),
    (∀ w, w ∈ st.2 ↔ w ∈ idsOf st.1) → (idsOf st.1).Nodup →
    j ∈ (N.foldl merge_step st).1 → truthy (getId j) = true → getId j ∈ idsOf N →
    ∃ o, lastWithId (getId j) N = some o ∧ qpVariant o j
  | [], _, _, _, _, _, _, hin => absurd hin (by simp [idsOf])
  | o :: rest, st, j, hseen, hnd, hj, htr, hin => by
    rw [List.foldl_cons] at hj
    by_cases hvrest : getId j ∈ idsOf rest
    · obtain ⟨o', h1, h2⟩ := merge_fold_last rest _ j
        (merge_step_seen st o hseen) (merge_step_nodup st o hseen hnd) hj htr hvrest
      exact ⟨o', (lastWithId_cons_of_mem o hvrest).trans h1, h2⟩
    · have hvo : getId j = getId o := by
        rcases List.mem_cons.mp (show getId j ∈ getId o :: idsOf rest from hin) with h | h
        · exact h
        · exact absurd h hvrest
      refine ⟨o, lastWithId_cons_of_not_mem hvo hvrest, ?_⟩
      have hj' : j ∈ (merge_step st o).1 := merge_fold_origin rest _ j hj hvrest
      rcases merge_step_cases st o with ⟨h1, h2, heq⟩ | ⟨h2, heq⟩ | ⟨h1, h2, heq⟩
      · rw [heq] at hj'
        rcases List.mem_append.mp hj' with h3 | h3
        · exfalso
          apply h2
          rw [hseen (getId o), ← hvo]
          exact List.mem_map_of_mem getId h3
        · exact Or.inl (by simpa using h3)
      · rw [heq] at hj'
        exact update_existing_unique rfl hnd ((hseen (getId o)).mp h2) hj' hvo
      · exfalso
        rw [hvo, h1] at htr
        exact absurd htr (by simp)

/-- Claim C7 (amended): restricted to truthy (non-empty) `order_id`s, and
for a duplicate-free current queue, the merged queue carries exactly the
id union of the current queue and the batch with no duplicate non-empty
ids, and the entry for an id arriving in the batch agrees with the last
batch job bearing that id on every field except the recomputed
`queue_position` and `priority_score`. (A job with a falsy id is dropped
rather than inserted — see the counterexample.) -/
theorem merge_id_union_spec (cfg : Config) (today : Date)
    (new_orders current_queue : List Job)
    (hw : ∀ j ∈ new_orders ++ current_queue, wfPriority j = true)
    (hnd : (idsOf current_queue).Nodup) :
    (∀ v, truthy v = true →
      (v ∈ idsOf (merge_with_existing_queue cfg today new_orders current_queue)
        ↔ v ∈ idsOf current_queue ∨ v ∈ idsOf new_orders))
    ∧ ((idsOf (merge_with_existing_queue cfg today new_orders current_queue)).filter
        truthy).Nodup
    ∧ (∀ j ∈ merge_with_existing_queue cfg today new_orders current_queue,
        truthy (getId j) = true → getId j ∈ idsOf new_orders →
        ∃ o, lastWithId (getId j) new_orders = some o
          ∧ agreesExcept ["queue_position", "priority_score"] j o) := by
  have hseen0 : ∀ w, w ∈ (current_queue, idsOf current_queue).2
      ↔ w ∈ idsOf (current_queue, idsOf current_queue).1 := fun _ => Iff.rfl
  have hR : merge_with_existing_queue cfg today new_orders current_queue
      = renumber (sort_orders cfg today
          ((new_orders.foldl merge_step (current_queue, idsOf current_queue)).1)) := rfl
  have hids : idsOf (merge_with_existing_queue cfg today new_orders current_queue)
      = idsOf (sort_orders cfg today
          ((new_orders.foldl merge_step (current_queue, idsOf current_queue)).1)) := by
    rw [hR]
    exact idsOf_renumber_aux _ 0
  have hperm := idsOf_sort_perm cfg today
    ((new_orders.foldl merge_step (current_queue, idsOf current_queue)).1)
  refine ⟨?_, ?_, ?_⟩
  · intro v htr
    rw [hids, hperm.mem_iff,
      merge_fold_ids v new_orders (current_queue, idsOf current_queue) hseen0]
    constructor
    · rintro (hA | ⟨_, hB⟩)
      · exact Or.inl hA
      · exact Or.inr hB
    · rintro (hA | hB)
      · exact Or.inl hA
      · exact Or.inr ⟨htr, hB⟩
  · apply List.Nodup.filter
    rw [hids, hperm.nodup_iff]
    exact (merge_fold_inv new_orders (current_queue, idsOf current_queue) hseen0 hnd).2
  · intro j hj htr hin
    rw [hR] at hj
    obtain ⟨x, hx, n, rfl⟩ := mem_renumber_aux hj
    have hx' := (List.mem_insertionSort jobLE).mp hx
    obtain ⟨y, hy, rfl⟩ := List.mem_map.mp hx'
    have hidj : getId (setField (setScore cfg today y) "queue_position" (.vInt n)) = getId y := by
      rw [getId_setField _ _ (by decide), getId_setScore]
    rw [hidj] at htr hin ⊢
    obtain ⟨o, hlast, hqpv⟩ := merge_fold_last new_orders
      (current_queue, idsOf current_queue) y hseen0 hnd hy htr hin
    refine ⟨o, hlast, ?_⟩
    intro k hk
    have hkqp : k ≠ "queue_position" := fun h => hk (h ▸ List.mem_cons_self _ _)
    have hkps : k ≠ "priority_score" := fun h =>
      hk (h ▸ List.mem_cons_of_mem _ (List.mem_cons_self _ _))
    rw [jLookup_setField_ne _ _ hkqp]
    show jLookup k (setField y "priority_score" _) = jLookup k o
    rw [jLookup_setField_ne _ _ hkps]
    exact jLookup_qpVariant hqpv hkqp

theorem merge_id_union_spec_witness :
    (∀ j ∈ ([[("order_id", Value.vStr "2"), ("customer", Value.vStr "B")]] ++
        [[("order_id", Value.vStr "1"), ("customer", Value.vStr "A")]] : List Job),
      wfPriority j = true)
    ∧ (idsOf [[("order_id", Value.vStr "1"), ("customer", Value.vStr "A")]]).Nodup
    ∧ (∀ v, truthy v = true →
        (v ∈ idsOf (merge_with_existing_queue defaultConfig sampleToday
            [[("order_id", Value.vStr "2"), ("customer", Value.vStr "B")]]
            [[("order_id", Value.vStr "1"), ("customer", Value.vStr "A")]])
          ↔ v ∈ idsOf [[("order_id", Value.vStr "1"), ("customer", Value.vStr "A")]]
            ∨ v ∈ idsOf [[("order_id", Value.vStr "2"), ("customer", Value.vStr "B")]]))
    ∧ ((idsOf (merge_with_existing_queue defaultConfig sampleToday
          [[("order_id", Value.vStr "2"), ("customer", Value.vStr "B")]]
          [[("order_id", Value.vStr "1"), ("customer", Value.vStr "A")]])).filter truthy).Nodup
    ∧ (∀ j ∈ merge_with_existing_queue defaultConfig sampleToday
          [[("order_id", Value.vStr "2"), ("customer", Value.vStr "B")]]
          [[("order_id", Value.vStr "1"), ("customer", Value.vStr "A")]],
        truthy (getId j) = true →
        getId j ∈ idsOf [[("order_id", Value.vStr "2"), ("customer", Value.vStr "B")]] →
        ∃ o, lastWithId (getId j)
            [[("order_id", Value.vStr "2"), ("customer", Value.vStr "B")]] = some o
          ∧ agreesExcept ["queue_position", "priority_score"] j o) := by
  have h := merge_id_union_spec defaultConfig sampleToday
    [[("order_id", Value.vStr "2"), ("customer", Value.vStr "B")]]
    [[("order_id", Value.vStr "1"), ("customer", Value.vStr "A")]]
    (by decide) (by decide)
  exact ⟨by decide, by decide, h.1, h.2.1, h.2.2⟩

end PrintQueue
